import Mathlib

/-- Characters allowed inside an allergen code body: digits and the dot. -/
def isDigitDot (c : Char) : Bool :=
  c.isDigit || c == '.'

/-- True when the list has no two adjacent dots. -/
def noDoubleDot : List Char → Bool
  | c :: d :: rest => !(c == '.' && d == '.') && noDoubleDot (d :: rest)
  | _ => true

/-- Validity of the text between the parentheses for the allergen regex
`(?:\d+\.?)+`: nonempty, made of digits and dots (guaranteed by the caller),
starting with a digit and with no two adjacent dots. -/
def validContent (l : List Char) : Bool :=
  match l with
  | [] => false
  | c :: _ => c.isDigit && noDoubleDot l

/-- Attempt to match the allergen-code regex `\((?:\d+\.?)+\)` right after an
opening parenthesis: `l` is the text following `'('`.  On success, return the
remainder after the closing parenthesis.  Because the body may contain only
digits and dots, the body of any match is exactly the maximal digit/dot run. -/
def allergenMatch (l : List Char) : Option (List Char) :=
  if (l.dropWhile isDigitDot).head? = some ')' ∧ validContent (l.takeWhile isDigitDot) = true
  then some (l.dropWhile isDigitDot).tail else none

/-- Single left-to-right pass of `re.sub(r"\((?:\d+\.?)+\)", "", s)`:
at each `'('`, try the allergen match; on success skip past the closing
parenthesis, otherwise keep the character. -/
def removeAllergen (l : List Char) : List Char :=
  match l with
  | [] => []
  | c :: rest =>
    if c == '(' then
      if hm : (allergenMatch rest).isSome then
        removeAllergen ((allergenMatch rest).get hm)
      else c :: removeAllergen rest
    else c :: removeAllergen rest
termination_by l.length
decreasing_by
  · rename_i rest _hcp
    simp only [List.length_cons]
    have key : ∀ (u l' : List Char), allergenMatch u = some l' → l'.length < u.length := by
      intro u l' h
      unfold allergenMatch at h
      split at h
      case isTrue hcond =>
        simp only [Option.some.injEq] at h
        subst h
        have hne : u.dropWhile isDigitDot ≠ [] := by
          intro hnil
          rw [hnil] at hcond
          exact absurd hcond.1 (by simp)
        have hsub : (u.dropWhile isDigitDot).length ≤ u.length :=
          List.Sublist.length_le (List.dropWhile_sublist _)
        have htl := List.length_tail (u.dropWhile isDigitDot)
        have hpos : 0 < (u.dropWhile isDigitDot).length := List.length_pos.mpr hne
        omega
      case isFalse => exact absurd h (by simp)
    exact Nat.lt_succ_of_lt (key rest _ (Option.some_get hm).symm)
  · simp
  · simp

/-- Attempt to match `<[^>]*>` right after an opening `'<'`: `l` is the text
following `'<'`.  The body absorbs everything up to the first `'>'`; the match
fails only when no `'>'` remains. -/
def tagMatch (l : List Char) : Option (List Char) :=
  match l.dropWhile (fun c => !(c == '>')) with
  | _ :: rest' => some rest'
  | [] => none

/-- Single left-to-right pass of `re.sub(r"<[^>]*>", "", s)`. -/
def removeTags (l : List Char) : List Char :=
  match l with
  | [] => []
  | c :: rest =>
    if c == '<' then
      if hm : (tagMatch rest).isSome then
        removeTags ((tagMatch rest).get hm)
      else c :: removeTags rest
    else c :: removeTags rest
termination_by l.length
decreasing_by
  · rename_i rest _hcp
    simp only [List.length_cons]
    have key : ∀ (u l' : List Char), tagMatch u = some l' → l'.length < u.length := by
      intro u l' h
      unfold tagMatch at h
      rcases hd : u.dropWhile (fun c => !(c == '>')) with _ | ⟨c', rest'⟩ <;> rw [hd] at h
      · exact absurd h (by simp)
      · have hsub : List.Sublist (c' :: rest') u := by
          rw [← hd]
          exact List.dropWhile_sublist _
        have hlen := List.Sublist.length_le hsub
        simp only [List.length_cons] at hlen
        have hrest : l'.length = rest'.length := by
          simp at h
          rw [h]
        omega
    exact Nat.lt_succ_of_lt (key rest _ (Option.some_get hm).symm)
  · simp
  · simp

/-- Python `s.replace("<br/>", "\n")`: left-to-right replacement of every
non-overlapping occurrence of the five-character marker `<br/>`. -/
def replaceBr (l : List Char) : List Char :=
  match l with
  | [] => []
  | c :: rest =>
    if c = '<' ∧ rest.take 4 = ['b', 'r', '/', '>'] then
      '\n' :: replaceBr (rest.drop 4)
    else c :: replaceBr rest
termination_by l.length
decreasing_by
  · simp only [List.length_cons, List.length_drop]
    omega
  · simp

/-- Line boundaries recognised by Python's `str.splitlines`. -/
def isLineBoundary (c : Char) : Bool :=
  c == '\n' || c == '\r' || c == '\u000B' || c == '\u000C' || c == '\u001C' ||
  c == '\u001D' || c == '\u001E' || c == '\u0085' || c == '\u2028' || c == '\u2029'

/-- Helper for `splitLines`; `acc` holds the current line, reversed. -/
def splitLinesAux (l : List Char) (acc : List Char) : List (List Char) :=
  match l with
  | [] => if acc.isEmpty then [] else [acc.reverse]
  | c :: rest =>
    if c = '\r' ∧ rest.head? = some '\n' then
      acc.reverse :: splitLinesAux rest.tail []
    else if isLineBoundary c then
      acc.reverse :: splitLinesAux rest []
    else
      splitLinesAux rest (c :: acc)
termination_by l.length
decreasing_by
  · simp only [List.length_cons, List.length_tail]
    omega
  · simp
  · simp

/-- Python `str.splitlines`: split at line boundaries, treating `"\r\n"` as a
single boundary and producing no trailing empty line. -/
def splitLines (l : List Char) : List (List Char) :=
  splitLinesAux l []

/-- Characters stripped by Python's default `str.strip` (the `str.isspace`
characters). -/
def isPySpace (c : Char) : Bool :=
  c == ' ' || c == '\t' || c == '\n' || c == '\r' || c == '\u000B' || c == '\u000C' ||
  c == '\u001C' || c == '\u001D' || c == '\u001E' || c == '\u001F' || c == '\u0085' ||
  c == '\u00A0' ||
  c == '\u1680' || (0x2000 ≤ c.toNat && c.toNat ≤ 0x200A) || c == '\u2028' ||
  c == '\u2029' || c == '\u202F' || c == '\u205F' || c == '\u3000'

/-- Remove a trailing run of characters satisfying `p`. -/
def dropTrail (p : Char → Bool) (l : List Char) : List Char :=
  (l.reverse.dropWhile p).reverse

/-- Python `str.strip()`. -/
def strip (l : List Char) : List Char :=
  dropTrail isPySpace (l.dropWhile isPySpace)

/-- Combined substitution pipeline of `clean_items`, applied before the
line-splitting step: replace `<br/>` markers with newlines, delete allergen
codes, then delete HTML tags. -/
def subPasses (s : List Char) : List Char :=
  removeTags (removeAllergen (replaceBr s))

/-- The Text Normalizer `clean_items` from `build_site.py`:
empty input short-circuits to `[]`; otherwise apply the three substitution
passes, then split into stripped, nonempty lines. -/
def clean_items (s : List Char) : List (List Char) :=
  if s.isEmpty then []
  else ((splitLines (subPasses s)).map strip).filter (fun l => !l.isEmpty)

/-- Join a list of lines with newline characters (used to feed the Normalizer
its own output when checking idempotence). -/
def joinNl : List (List Char) → List Char
  | [] => []
  | [x] => x
  | x :: xs => x ++ '\n' :: joinNl xs

/-- True when the text still contains an HTML tag, i.e. a substring matching
`<[^>]*>` — equivalently, a `'<'` with some later `'>'`. -/
def hasTag : List Char → Bool
  | [] => false
  | c :: rest => (c == '<' && rest.contains '>') || hasTag rest

/-- True when the text still contains a substring matching the allergen-code
regex `\((?:\d+\.?)+\)`. -/
def hasAllergen : List Char → Bool
  | [] => false
  | c :: rest => (c == '(' && (allergenMatch rest).isSome) || hasAllergen rest

/-- KST wall-clock time as read by the page script (`nowKST`): hour and minute. -/
structure KstTime where
  hh : Nat
  mm : Nat
deriving DecidableEq, Repr

/-- The result record of the page script's `decideSlot`. -/
structure SlotChoice where
  day : String
  ymd : String
  code : String
  label : String
deriving DecidableEq, Repr

/-- The view-time slot-selection function `decideSlot` from the generated page
script: minutes before 09:00 pick today's breakfast (slot "1"), before 13:00
today's lunch ("2"), before 19:00 today's dinner ("3"), and from 19:00 on
tomorrow's breakfast. -/
def decideSlot (kst : KstTime) (todayYMD tomorrowYMD : String) : SlotChoice :=
  if kst.hh * 60 + kst.mm < 9 * 60 then ⟨"today", todayYMD, "1", "조식"⟩
  else if kst.hh * 60 + kst.mm < 13 * 60 then ⟨"today", todayYMD, "2", "중식"⟩
  else if kst.hh * 60 + kst.mm < 19 * 60 then ⟨"today", todayYMD, "3", "석식"⟩
  else ⟨"tomorrow", tomorrowYMD, "1", "내일 조식"⟩

/-- JSON values, used to model the API response body and the written artifact. -/
inductive Json where
  | str : List Char → Json
  | num : Int → Json
  | null : Json
  | arr : List Json → Json
  | obj : List (List Char × Json) → Json

/-- Lookup of a key in the field list of a JSON object (Python `dict` access;
keys are unique in every object we build or read). -/
def lookupF : List (List Char × Json) → List Char → Option Json
  | [], _ => none
  | (k', v) :: rest, k => if k' = k then some v else lookupF rest k

/-- Lookup of a key in a JSON object value; `none` on non-objects. -/
def jLookup (j : Json) (k : List Char) : Option Json :=
  match j with
  | Json.obj fields => lookupF fields k
  | _ => none

/-- Top-level keys of a JSON object, in insertion order. -/
def jKeys : Json → List (List Char)
  | Json.obj fields => fields.map Prod.fst
  | _ => []

/-- Extraction of the `rows` list in `fetch_one`:
`data.get("mealServiceDietInfo", [None, {"row": []}])[1]["row"]`.
`some rows` is returned exactly when that Python expression evaluates without
raising to a list; a missing key yields the default's `[]`; any other shape
raises inside the `try` block, which the caller turns into the empty result. -/
def extractRows (data : Json) : Option (List Json) :=
  match data with
  | Json.obj fields =>
    match lookupF fields "mealServiceDietInfo".data with
    | none => some []
    | some (Json.arr l) =>
      match l.get? 1 with
      | some (Json.obj f2) =>
        match lookupF f2 "row".data with
        | some (Json.arr rows) => some rows
        | _ => none
      | _ => none
    | some _ => none
  | _ => none

/-- Python `row.get(k, "")` handed to `clean_items`.  An absent key yields the
default `""`.  A present falsy non-string value (null, 0, empty array or
object) does not raise either: the `if not s` guard of `clean_items` returns
`[]`, so it behaves like `""`.  A present truthy non-string value makes
`clean_items` raise inside the `try` block, reported as `none` (failure). -/
def getStrStrict (fields : List (List Char × Json)) (k : List Char) : Option (List Char) :=
  match lookupF fields k with
  | none => some []
  | some (Json.str s) => some s
  | some Json.null => some []
  | some (Json.num n) => if n = 0 then some [] else none
  | some (Json.arr l) => if l.isEmpty then some [] else none
  | some (Json.obj f) => if f.isEmpty then some [] else none

/-- Python `row.get("SCHUL_NM", "")` used directly as the school name.  The API
serves strings here; a non-string value is modelled as the empty name. -/
def getStrLoose (fields : List (List Char × Json)) (k : List Char) : List Char :=
  match lookupF fields k with
  | some (Json.str s) => s
  | _ => []

/-- Outcome of the single HTTP request issued by `fetch_one`:
either a transport failure (a `requests` exception), or a response with a
status code and a body, where `none` stands for a body that is not valid JSON
(`r.json()` raises). -/
inductive HttpResult where
  | netError : HttpResult
  | response (status : Nat) (body : Option Json) : HttpResult

/-- Reduction of the extracted `rows` value to the fetch result: empty rows
yield the empty result; a first row that is an object yields its cleaned
`DDISH_NM` and its `SCHUL_NM`; any other shape raises inside the `try` block
and is therefore collapsed to the empty result. -/
def rowsToResult : Option (List Json) → List (List Char) × List Char
  | none => ([], [])
  | some [] => ([], [])
  | some (Json.obj rf :: _) =>
    match getStrStrict rf "DDISH_NM".data with
    | none => ([], [])
    | some d => (clean_items d, getStrLoose rf "SCHUL_NM".data)
  | some (_ :: _) => ([], [])

/-- Processing of the response body after `raise_for_status`: a body that is
not valid JSON makes `r.json()` raise (collapsed to the empty result);
otherwise the rows are extracted and reduced. -/
def bodyToResult : Option Json → List (List Char) × List Char
  | none => ([], [])
  | some data => rowsToResult (extractRows data)

/-- The Meal Fetcher `fetch_one` from `build_site.py`, as a function of the
request outcome.  `raise_for_status` raises for status codes in [400, 600);
every exception inside the `try` block is caught and collapsed to
`([], "")`; an empty `rows` list also yields `([], "")`. -/
def fetch_one (r : HttpResult) : List (List Char) × List Char :=
  match r with
  | HttpResult.netError => ([], [])
  | HttpResult.response status body =>
    if 400 ≤ status ∧ status < 600 then ([], []) else bodyToResult body

/-- Python `a or b` on strings: `b` when `a` is empty, else `a`. -/
def pyOr (a b : List Char) : List Char :=
  if a = [] then b else a

/-- The school-name fold in `main`: starting from `""`, fold in the three
today-fetch names in order, then `school_name or sch2 or "학교"`. -/
def buildSchool (s1 s2 s3 s4 : List Char) : List Char :=
  pyOr (pyOr (pyOr (pyOr [] s1) s2) s3) (pyOr s4 "학교".data)

/-- The `meals` object assembled in `main`: `today` holds its date and the
three slot keys "1","2","3" in insertion order; `tomorrow` holds its date and
only slot "1". -/
def buildMeals (today tomorrow : List Char) (d1 d2 d3 dt : List (List Char)) : Json :=
  Json.obj
    [("today".data, Json.obj
        [("date".data, Json.str today),
         ("1".data, Json.arr (d1.map Json.str)),
         ("2".data, Json.arr (d2.map Json.str)),
         ("3".data, Json.arr (d3.map Json.str))]),
     ("tomorrow".data, Json.obj
        [("date".data, Json.str tomorrow),
         ("1".data, Json.arr (dt.map Json.str))])]

/-- The JSON value written to `meals.json` by `main`, as a function of the two
dates, the build timestamp, and the four fetch results (today's slots 1,2,3
and tomorrow's slot 1, in call order). -/
def buildSnapshot (today tomorrow builtAt : List Char)
    (f1 f2 f3 f4 : List (List Char) × List Char) : Json :=
  Json.obj
    [("school".data, Json.str (buildSchool f1.2 f2.2 f3.2 f4.2)),
     ("built_at_kst".data, Json.str builtAt),
     ("meals".data, buildMeals today tomorrow f1.1 f2.1 f3.1 f4.1)]

/-- Navigation to one slot list of the written snapshot:
`snapshot["meals"][day][slot]`. -/
def slotOf (j : Json) (day slot : List Char) : Option Json :=
  (jLookup j "meals".data).bind fun m => (jLookup m day).bind fun d => jLookup d slot

/-- First non-empty string in the list, or the fallback when all are empty.
This follows the specification text for the `school` field: "the first
non-empty school name observed across all fetch calls, defaulting to a
fallback literal if all fail". -/
def specFirstNonEmptyOr (fallback : List Char) : List (List Char) → List Char
  | [] => fallback
  | x :: xs => if x = [] then specFirstNonEmptyOr fallback xs else x

/-- Shape required by the specification's claimed Snapshot data model:
top-level keys `school`, `built_at`, `today`, `tomorrow`.  This follows the
spec's words, for comparison with what `buildSnapshot` actually writes. -/
def specSnapshotShape (j : Json) : Bool :=
  (jLookup j "school".data).isSome && (jLookup j "built_at".data).isSome &&
  (jLookup j "today".data).isSome && (jLookup j "tomorrow".data).isSome

/-- Angle-bracket characters, the alphabet relevant to HTML-tag matching. -/
def isAngle (c : Char) : Bool := c == '<' || c == '>'

/-- Characters of a "plain" dish name: not an angle-bracket opener, not a
parenthesis opener, and not whitespace, so that every substitution pass and
the strip step leave the name untouched. -/
def plainChar (c : Char) : Bool := !(c == '<') && !(c == '(') && !(isPySpace c)

/-- Failure outcomes of one Meal Fetcher request, following the specification's
error taxonomy: (a) network/transport failure, (b) non-success response status,
(c) malformed/unexpected JSON shape, (d) no-data response. -/
def isFailureOutcome : HttpResult → Bool
  | HttpResult.netError => true
  | HttpResult.response status body =>
    decide (400 ≤ status ∧ status < 600) ||
    (match body with
     | none => true
     | some data =>
       match extractRows data with
       | none => true
       | some rows => rows.isEmpty)

theorem allergenMatch_length {l l' : List Char} (h : allergenMatch l = some l') :
    l'.length < l.length := by
  unfold allergenMatch at h
  split at h
  case isTrue hcond =>
    simp only [Option.some.injEq] at h
    subst h
    have hne : l.dropWhile isDigitDot ≠ [] := by
      intro hnil
      rw [hnil] at hcond
      exact absurd hcond.1 (by simp)
    have hsub : (l.dropWhile isDigitDot).length ≤ l.length :=
      List.Sublist.length_le (List.dropWhile_sublist _)
    have htl : (l.dropWhile isDigitDot).tail.length = (l.dropWhile isDigitDot).length - 1 :=
      List.length_tail _
    have hpos : 0 < (l.dropWhile isDigitDot).length := List.length_pos.mpr hne
    omega
  case isFalse => exact absurd h (by simp)

theorem tagMatch_length {l l' : List Char} (h : tagMatch l = some l') :
    l'.length < l.length := by
  unfold tagMatch at h
  rcases hd : l.dropWhile (fun c => !(c == '>')) with _ | ⟨c, rest⟩ <;> rw [hd] at h
  · exact absurd h (by simp)
  · have hsub : List.Sublist (c :: rest) l := by
      rw [← hd]; exact List.dropWhile_sublist _
    have hlen := List.Sublist.length_le hsub
    simp only [List.length_cons] at hlen
    have hrest : l'.length = rest.length := by
      simp at h
      rw [h]
    omega

/-! ### Facts about `tagMatch` and `removeTags` -/
theorem tagMatch_sub {l l' : List Char} (h : tagMatch l = some l') :
    List.Sublist l' l := by
  unfold tagMatch at h
  rcases hd : l.dropWhile (fun c => !(c == '>')) with _ | ⟨c, rest⟩ <;> rw [hd] at h
  · exact absurd h (by simp)
  · have hsub : List.Sublist (c :: rest) l := by
      rw [← hd]; exact List.dropWhile_sublist _
    simp at h
    subst h
    exact (List.sublist_cons_self c rest).trans hsub

theorem tagMatch_cons_gt (rest : List Char) : tagMatch ('>' :: rest) = some rest := by
  unfold tagMatch
  simp [List.dropWhile_cons]

theorem tagMatch_cons_ne {c : Char} (rest : List Char) (hc : ¬ c = '>') :
    tagMatch (c :: rest) = tagMatch rest := by
  unfold tagMatch
  rw [List.dropWhile_cons]
  simp [hc]

theorem tagMatch_eq_none_iff {l : List Char} :
    tagMatch l = none ↔ l.contains '>' = false := by
  induction l with
  | nil => simp [tagMatch]
  | cons c rest ih =>
    by_cases hc : c = '>'
    · subst hc
      rw [tagMatch_cons_gt]
      simp
    · rw [tagMatch_cons_ne rest hc]
      rw [ih]
      have hcc : ('>' == c) = false := beq_eq_false_iff_ne.mpr (fun hh => hc hh.symm)
      simp [List.contains_cons, hcc]
      intro _
      exact fun hh => hc hh.symm

theorem removeTags_sublist (l : List Char) : List.Sublist (removeTags l) l := by
  induction l using removeTags.induct with
  | case1 => simp [removeTags]
  | case2 c rest hc hm ih =>
    rw [removeTags]
    simp only [hc, hm, if_true, dif_pos]
    exact (ih.trans (tagMatch_sub (Option.some_get hm).symm)).trans
      (List.sublist_cons_self c rest)
  | case3 c rest hc hm ih =>
    rw [removeTags]
    simp only [hc, hm, if_true, dif_neg]
    exact List.Sublist.cons₂ c ih
  | case4 c rest hc ih =>
    rw [removeTags]
    simp only [hc, if_false]
    exact List.Sublist.cons₂ c ih

theorem hasTag_iff_sublist {l : List Char} :
    hasTag l = true ↔ List.Sublist ['<', '>'] l := by
  induction l with
  | nil => simp [hasTag]
  | cons c rest ih =>
    simp only [hasTag, Bool.or_eq_true, Bool.and_eq_true, beq_iff_eq]
    constructor
    · rintro (⟨rfl, hc⟩ | ht)
      · exact List.Sublist.cons₂ '<' (List.singleton_sublist.mpr (List.elem_iff.mp hc))
      · exact (ih.mp ht).cons c
    · intro h
      cases h with
      | cons _ h => exact Or.inr (ih.mpr h)
      | cons₂ _ h => exact Or.inl ⟨rfl, List.elem_iff.mpr (List.singleton_sublist.mp h)⟩

theorem hasTag_eq_false_of_sublist {l l' : List Char} (hsub : List.Sublist l' l)
    (h : hasTag l = false) : hasTag l' = false := by
  by_contra hc
  simp only [Bool.not_eq_false] at hc
  have ht : hasTag l = true := hasTag_iff_sublist.mpr ((hasTag_iff_sublist.mp hc).trans hsub)
  rw [ht] at h
  simp at h

theorem contains_eq_false_of_sublist {l l' : List Char} {a : Char}
    (hsub : List.Sublist l' l) (h : l.contains a = false) : l'.contains a = false := by
  by_contra hc
  simp only [Bool.not_eq_false] at hc
  have hmem : a ∈ l := hsub.subset (List.elem_iff.mp hc)
  have hl : l.contains a = true := List.elem_iff.mpr hmem
  rw [hl] at h
  simp at h

theorem hasTag_removeTags (l : List Char) : hasTag (removeTags l) = false := by
  induction l using removeTags.induct with
  | case1 => simp [removeTags, hasTag]
  | case2 c rest hc hm ih =>
    rw [removeTags]
    simp only [hc, hm, if_true, dif_pos]
    exact ih
  | case3 c rest hc hm ih =>
    rw [removeTags]
    simp only [hc, hm, if_true, dif_neg]
    have hng : rest.contains '>' = false := by
      rw [← tagMatch_eq_none_iff]
      exact Option.not_isSome_iff_eq_none.mp hm
    have hng' : (removeTags rest).contains '>' = false :=
      contains_eq_false_of_sublist (removeTags_sublist rest) hng
    simp only [hasTag, hng', Bool.and_false, Bool.false_or]
    exact ih
  | case4 c rest hc ih =>
    rw [removeTags]
    simp only [hc, if_false]
    simp only [hasTag, Bool.or_eq_false_iff, Bool.and_eq_false_iff]
    exact ⟨Or.inl (by simpa using hc), ih⟩

theorem removeTags_eq_self {l : List Char} (h : hasTag l = false) : removeTags l = l := by
  induction l using removeTags.induct with
  | case1 => simp [removeTags]
  | case2 c rest hc hm ih =>
    exfalso
    simp only [hasTag, Bool.or_eq_false_iff, Bool.and_eq_false_iff] at h
    rcases h.1 with hcc | hng
    · rw [beq_eq_false_iff_ne] at hcc
      exact hcc (by simpa using hc)
    · rw [← tagMatch_eq_none_iff] at hng
      rw [hng] at hm
      exact absurd hm (by simp)
  | case3 c rest hc hm ih =>
    simp only [hasTag, Bool.or_eq_false_iff] at h
    rw [removeTags]
    simp only [hc, if_true]
    rw [dif_neg hm, ih h.2]
  | case4 c rest hc ih =>
    simp only [hasTag, Bool.or_eq_false_iff] at h
    rw [removeTags]
    rw [if_neg hc, ih h.2]

/-! ### Facts about `allergenMatch`, `removeAllergen` and `hasAllergen` -/
theorem takeWhile_length_lt_of_dropWhile_ne_nil {p : Char → Bool} {xs : List Char}
    (h : ¬ xs.dropWhile p = []) : ¬ (xs.takeWhile p).length = xs.length := by
  have hlen := congrArg List.length (List.takeWhile_append_dropWhile p xs)
  rw [List.length_append] at hlen
  have hpos : 0 < (xs.dropWhile p).length := List.length_pos.mpr h
  omega

theorem dropWhile_append_ne_nil {p : Char → Bool} {xs : List Char} {c : Char}
    {rest : List Char} (zs : List Char) (h : xs.dropWhile p = c :: rest) :
    (xs ++ zs).dropWhile p = c :: (rest ++ zs) := by
  rw [List.dropWhile_append, h]
  simp

theorem takeWhile_append_ne_nil {p : Char → Bool} {xs : List Char} {c : Char}
    {rest : List Char} (zs : List Char) (h : xs.dropWhile p = c :: rest) :
    (xs ++ zs).takeWhile p = xs.takeWhile p := by
  rw [List.takeWhile_append]
  rw [if_neg (takeWhile_length_lt_of_dropWhile_ne_nil (by simp [h]))]

theorem allergenMatch_append_nl (xs ys : List Char) :
    (allergenMatch (xs ++ '\n' :: ys)).isSome = (allergenMatch xs).isSome := by
  rcases hd : xs.dropWhile isDigitDot with _ | ⟨c, rest⟩
  · have hall : ∀ a ∈ xs, isDigitDot a := List.dropWhile_eq_nil_iff.mp hd
    have h1 : (xs ++ '\n' :: ys).dropWhile isDigitDot = '\n' :: ys := by
      rw [List.dropWhile_append_of_pos hall]
      exact List.dropWhile_cons_of_neg (by simp [isDigitDot])
    unfold allergenMatch
    rw [h1, hd]
    simp
  · have h1 := dropWhile_append_ne_nil ('\n' :: ys) hd
    have h2 := takeWhile_append_ne_nil ('\n' :: ys) hd
    unfold allergenMatch
    rw [h1, h2, hd]
    simp only [List.head?_cons]
    split <;> simp

theorem allergenMatch_isSome_append {l : List Char} (post : List Char)
    (h : (allergenMatch l).isSome = true) : (allergenMatch (l ++ post)).isSome = true := by
  unfold allergenMatch at h
  split at h
  case isFalse => exact absurd h (by simp)
  case isTrue hcond =>
    rcases hd : l.dropWhile isDigitDot with _ | ⟨c, rest⟩
    · rw [hd] at hcond
      exact absurd hcond.1 (by simp)
    · rw [hd] at hcond
      simp only [List.head?_cons, Option.some.injEq] at hcond
      have h1 := dropWhile_append_ne_nil post hd
      have h2 := takeWhile_append_ne_nil post hd
      unfold allergenMatch
      rw [h1, h2]
      rw [if_pos ⟨by simp [hcond.1], hcond.2⟩]
      simp

theorem hasAllergen_nil : hasAllergen [] = false := rfl

theorem hasTag_nil : hasTag [] = false := rfl

theorem hasAllergen_cons (c : Char) (rest : List Char) :
    hasAllergen (c :: rest) = ((c == '(') && (allergenMatch rest).isSome || hasAllergen rest) :=
  rfl

theorem hasTag_cons (c : Char) (rest : List Char) :
    hasTag (c :: rest) = ((c == '<') && rest.contains '>' || hasTag rest) :=
  rfl

theorem hasAllergen_append_nl (xs ys : List Char) :
    hasAllergen (xs ++ '\n' :: ys) = (hasAllergen xs || hasAllergen ys) := by
  induction xs with
  | nil =>
    rw [List.nil_append, hasAllergen_cons, hasAllergen_nil]
    simp
  | cons c xs' ih =>
    rw [List.cons_append, hasAllergen_cons, ih, allergenMatch_append_nl, hasAllergen_cons]
    rw [Bool.or_assoc]

theorem hasAllergen_joinNl (items : List (List Char)) :
    hasAllergen (joinNl items) = items.any hasAllergen := by
  induction items with
  | nil => simp [joinNl, hasAllergen]
  | cons x xs ih =>
    cases xs with
    | nil => simp [joinNl]
    | cons y t =>
      have hj : joinNl (x :: y :: t) = x ++ '\n' :: joinNl (y :: t) := rfl
      rw [hj, hasAllergen_append_nl, ih]
      simp

theorem hasAllergen_append_right {xs : List Char} (post : List Char)
    (h : hasAllergen xs = true) : hasAllergen (xs ++ post) = true := by
  induction xs with
  | nil => exact absurd h (by simp [hasAllergen])
  | cons c xs' ih =>
    simp only [hasAllergen, Bool.or_eq_true, Bool.and_eq_true] at h
    rcases h with ⟨hc, hm⟩ | ht
    · simp only [List.cons_append, hasAllergen, Bool.or_eq_true, Bool.and_eq_true]
      exact Or.inl ⟨hc, allergenMatch_isSome_append post hm⟩
    · simp only [List.cons_append, hasAllergen, Bool.or_eq_true]
      exact Or.inr (ih ht)

theorem hasAllergen_append_left (pre : List Char) {ys : List Char}
    (h : hasAllergen ys = true) : hasAllergen (pre ++ ys) = true := by
  induction pre with
  | nil => simpa using h
  | cons c pre' ih =>
    simp only [List.cons_append, hasAllergen, Bool.or_eq_true]
    exact Or.inr ih

theorem removeAllergen_eq_self {l : List Char} (h : hasAllergen l = false) :
    removeAllergen l = l := by
  induction l using removeAllergen.induct with
  | case1 => simp [removeAllergen]
  | case2 c rest hc hm ih =>
    exfalso
    simp only [hasAllergen, Bool.or_eq_false_iff, Bool.and_eq_false_iff] at h
    rcases h.1 with hcc | hns
    · rw [hc] at hcc
      exact absurd hcc (by simp)
    · rw [hm] at hns
      exact absurd hns (by simp)
  | case3 c rest hc hm ih =>
    simp only [hasAllergen, Bool.or_eq_false_iff] at h
    rw [removeAllergen]
    simp only [hc, if_true]
    rw [dif_neg hm, ih h.2]
  | case4 c rest hc ih =>
    simp only [hasAllergen, Bool.or_eq_false_iff] at h
    rw [removeAllergen]
    rw [if_neg hc, ih h.2]

theorem hasTag_eq_false_of_no_lt {l : List Char} (h : l.contains '<' = false) :
    hasTag l = false := by
  induction l with
  | nil => simp [hasTag]
  | cons c rest ih =>
    simp only [List.contains_cons, Bool.or_eq_false_iff] at h
    simp only [hasTag, Bool.or_eq_false_iff, Bool.and_eq_false_iff]
    refine ⟨Or.inl ?_, ih h.2⟩
    have : ¬ '<' = c := by simpa using h.1
    simp
    intro hcc
    exact this hcc.symm

theorem hasAllergen_eq_false_of_no_paren {l : List Char} (h : l.contains '(' = false) :
    hasAllergen l = false := by
  induction l with
  | nil => simp [hasAllergen]
  | cons c rest ih =>
    simp only [List.contains_cons, Bool.or_eq_false_iff] at h
    simp only [hasAllergen, Bool.or_eq_false_iff, Bool.and_eq_false_iff]
    refine ⟨Or.inl ?_, ih h.2⟩
    have : ¬ '(' = c := by simpa using h.1
    simp
    intro hcc
    exact this hcc.symm

theorem replaceBr_eq_self {l : List Char} (h : hasTag l = false) : replaceBr l = l := by
  induction l using replaceBr.induct with
  | case1 => simp [replaceBr]
  | case2 c rest hcond ih =>
    exfalso
    obtain ⟨hc, htake⟩ := hcond
    subst hc
    have hgt : '>' ∈ rest := List.take_subset 4 rest (by rw [htake]; simp)
    simp only [hasTag, Bool.or_eq_false_iff, Bool.and_eq_false_iff] at h
    rcases h.1 with hcc | hng
    · exact absurd hcc (by simp)
    · have hcont : rest.contains '>' = true := List.elem_iff.mpr hgt
      rw [hcont] at hng
      exact absurd hng (by simp)
  | case3 c rest hcond ih =>
    simp only [hasTag, Bool.or_eq_false_iff] at h
    rw [replaceBr]
    rw [if_neg hcond, ih h.2]

/-! ### Facts about `splitLinesAux`, `strip` and `joinNl` -/
theorem splitLinesAux_nil (acc : List Char) :
    splitLinesAux [] acc = if acc.isEmpty then [] else [acc.reverse] := by
  rw [splitLinesAux]

theorem splitLinesAux_crlf {rest : List Char} (acc : List Char) (h : rest.head? = some '\n') :
    splitLinesAux ('\r' :: rest) acc = acc.reverse :: splitLinesAux rest.tail [] := by
  rw [splitLinesAux]
  rw [if_pos ⟨rfl, h⟩]

theorem splitLinesAux_boundary {c : Char} {rest : List Char} (acc : List Char)
    (h1 : ¬(c = '\r' ∧ rest.head? = some '\n')) (h2 : isLineBoundary c = true) :
    splitLinesAux (c :: rest) acc = acc.reverse :: splitLinesAux rest [] := by
  rw [splitLinesAux]
  rw [if_neg h1, if_pos h2]

theorem splitLinesAux_other {c : Char} {rest : List Char} (acc : List Char)
    (h : isLineBoundary c = false) :
    splitLinesAux (c :: rest) acc = splitLinesAux rest (c :: acc) := by
  have h1 : ¬(c = '\r' ∧ rest.head? = some '\n') := by
    rintro ⟨rfl, -⟩
    rw [show isLineBoundary '\r' = true from rfl] at h
    exact absurd h (by simp)
  rw [splitLinesAux]
  rw [if_neg h1, if_neg (by simp [h])]

theorem all_of_sublist {q : Char → Bool} {l l' : List Char} (hs : List.Sublist l' l)
    (h : l.all q = true) : l'.all q = true := by
  rw [List.all_eq_true] at h
  rw [List.all_eq_true]
  exact fun x hx => h x (hs.subset hx)

theorem splitLinesAux_all_not_boundary (l acc : List Char) :
    acc.all (fun c => !isLineBoundary c) = true →
    ∀ e ∈ splitLinesAux l acc, e.all (fun c => !isLineBoundary c) = true := by
  induction l, acc using splitLinesAux.induct with
  | case1 acc hem =>
    intro hacc e he
    rw [splitLinesAux_nil, if_pos hem] at he
    exact absurd he (by simp)
  | case2 acc hem =>
    intro hacc e he
    rw [splitLinesAux_nil, if_neg hem] at he
    simp only [List.mem_singleton] at he
    subst he
    simpa using hacc
  | case3 acc c rest hcond ih =>
    intro hacc e he
    obtain ⟨rfl, hh⟩ := hcond
    rw [splitLinesAux_crlf acc hh] at he
    rcases List.mem_cons.mp he with rfl | hmem
    · simpa using hacc
    · exact ih (by simp) e hmem
  | case4 acc c rest h1 h2 ih =>
    intro hacc e he
    rw [splitLinesAux_boundary acc h1 h2] at he
    rcases List.mem_cons.mp he with rfl | hmem
    · simpa using hacc
    · exact ih (by simp) e hmem
  | case5 acc c rest h1 h2 ih =>
    intro hacc e he
    have hc : isLineBoundary c = false := by simpa using h2
    rw [splitLinesAux_other acc hc] at he
    refine ih ?_ e he
    simp only [List.all_cons, hacc, Bool.and_true]
    simp [hc]

theorem splitLinesAux_mem_decomp (l acc : List Char) :
    ∀ e ∈ splitLinesAux l acc, ∃ pre post, pre ++ e ++ post = acc.reverse ++ l := by
  induction l, acc using splitLinesAux.induct with
  | case1 acc hem =>
    intro e he
    rw [splitLinesAux_nil, if_pos hem] at he
    exact absurd he (by simp)
  | case2 acc hem =>
    intro e he
    rw [splitLinesAux_nil, if_neg hem] at he
    simp only [List.mem_singleton] at he
    subst he
    exact ⟨[], [], by simp⟩
  | case3 acc c rest hcond ih =>
    intro e he
    obtain ⟨rfl, hh⟩ := hcond
    rw [splitLinesAux_crlf acc hh] at he
    rcases List.mem_cons.mp he with rfl | hmem
    · exact ⟨[], '\r' :: rest, by simp⟩
    · obtain ⟨pre, post, hdec⟩ := ih e hmem
      simp only [List.reverse_nil, List.nil_append] at hdec
      refine ⟨acc.reverse ++ '\r' :: '\n' :: pre, post, ?_⟩
      have hrest : rest = '\n' :: rest.tail := by
        cases rest with
        | nil => simp at hh
        | cons a t =>
          simp only [List.head?_cons, Option.some.injEq] at hh
          rw [hh]
          rfl
      conv_rhs => rw [hrest]
      rw [← hdec]
      simp
  | case4 acc c rest h1 h2 ih =>
    intro e he
    rw [splitLinesAux_boundary acc h1 h2] at he
    rcases List.mem_cons.mp he with rfl | hmem
    · exact ⟨[], c :: rest, by simp⟩
    · obtain ⟨pre, post, hdec⟩ := ih e hmem
      simp only [List.reverse_nil, List.nil_append] at hdec
      refine ⟨acc.reverse ++ c :: pre, post, ?_⟩
      rw [← hdec]
      simp
  | case5 acc c rest h1 h2 ih =>
    intro e he
    have hc : isLineBoundary c = false := by simpa using h2
    rw [splitLinesAux_other acc hc] at he
    obtain ⟨pre, post, hdec⟩ := ih e he
    refine ⟨pre, post, ?_⟩
    rw [hdec]
    simp

theorem splitLinesAux_join_filter {p : Char → Bool}
    (hp : ∀ c, isLineBoundary c = true → p c = false) (l acc : List Char) :
    ((splitLinesAux l acc).map (List.filter p)).flatten =
      acc.reverse.filter p ++ l.filter p := by
  induction l, acc using splitLinesAux.induct with
  | case1 acc hem =>
    rw [splitLinesAux_nil, if_pos hem]
    have : acc = [] := by simpa using hem
    subst this
    simp
  | case2 acc hem =>
    rw [splitLinesAux_nil, if_neg hem]
    simp
  | case3 acc c rest hcond ih =>
    obtain ⟨rfl, hh⟩ := hcond
    rw [splitLinesAux_crlf acc hh]
    have hrest : rest = '\n' :: rest.tail := by
      cases rest with
      | nil => simp at hh
      | cons a t =>
        simp only [List.head?_cons, Option.some.injEq] at hh
        rw [hh]
        rfl
    simp only [List.map_cons, List.flatten_cons, ih]
    conv_rhs => rw [hrest]
    rw [List.filter_cons_of_neg (by simp [hp '\r' rfl])]
    rw [List.filter_cons_of_neg (by simp [hp '\n' rfl])]
    simp
  | case4 acc c rest h1 h2 ih =>
    rw [splitLinesAux_boundary acc h1 h2]
    simp only [List.map_cons, List.flatten_cons, ih]
    rw [List.filter_cons_of_neg (by simp [hp c h2])]
    simp
  | case5 acc c rest h1 h2 ih =>
    have hc : isLineBoundary c = false := by simpa using h2
    rw [splitLinesAux_other acc hc]
    rw [ih]
    rw [List.filter_cons]
    cases hpc : p c <;> simp [List.filter_append, List.filter_cons, hpc]

theorem splitLinesAux_append_nl {e : List Char} (rest : List Char) :
    ∀ acc, e.all (fun c => !isLineBoundary c) = true →
    splitLinesAux (e ++ '\n' :: rest) acc = (acc.reverse ++ e) :: splitLinesAux rest [] := by
  induction e with
  | nil =>
    intro acc _
    rw [List.nil_append]
    have h1 : ¬('\n' = '\r' ∧ rest.head? = some '\n') := by
      rintro ⟨hh, -⟩
      exact absurd hh (by decide)
    rw [splitLinesAux_boundary acc h1 (by decide)]
    simp
  | cons c e' ih =>
    intro acc he
    simp only [List.all_cons, Bool.and_eq_true] at he
    have hc : isLineBoundary c = false := by simpa using he.1
    rw [List.cons_append, splitLinesAux_other acc hc, ih (c :: acc) he.2]
    simp

theorem splitLinesAux_all_text {e : List Char} :
    ∀ acc, e.all (fun c => !isLineBoundary c) = true → ¬ (acc.reverse ++ e) = [] →
    splitLinesAux e acc = [acc.reverse ++ e] := by
  induction e with
  | nil =>
    intro acc _ hne
    rw [splitLinesAux_nil]
    have hacc : ¬ acc.isEmpty = true := by
      simp only [List.append_nil] at hne
      simp only [List.isEmpty_iff]
      intro hh
      subst hh
      simp at hne
    rw [if_neg hacc]
    simp
  | cons c e' ih =>
    intro acc he hne
    simp only [List.all_cons, Bool.and_eq_true] at he
    have hc : isLineBoundary c = false := by simpa using he.1
    rw [splitLinesAux_other acc hc, ih (c :: acc) he.2 (by simp)]
    simp

theorem splitLines_joinNl {items : List (List Char)}
    (h : ∀ e ∈ items, ¬ e = [] ∧ e.all (fun c => !isLineBoundary c) = true) :
    ¬ items = [] → splitLines (joinNl items) = items := by
  induction items with
  | nil => intro hni; exact absurd rfl hni
  | cons x xs ih =>
    intro _
    have hx := h x (by simp)
    cases xs with
    | nil =>
      unfold splitLines
      rw [show joinNl [x] = x from rfl]
      rw [splitLinesAux_all_text [] hx.2 (by simpa using hx.1)]
      simp
    | cons y t =>
      unfold splitLines
      rw [show joinNl (x :: y :: t) = x ++ '\n' :: joinNl (y :: t) from rfl]
      rw [splitLinesAux_append_nl (joinNl (y :: t)) [] hx.2]
      simp only [List.reverse_nil, List.nil_append]
      have hrec := ih (fun e he => h e (List.mem_cons_of_mem x he)) (by simp)
      unfold splitLines at hrec
      rw [hrec]

/-! ### Facts about `strip` -/
theorem dropWhile_head_not {p : Char → Bool} {l : List Char} :
    ∀ {c : Char} {rest : List Char}, l.dropWhile p = c :: rest → p c = false := by
  induction l with
  | nil => intro c rest h; simp at h
  | cons a t ih =>
    intro c rest h
    rw [List.dropWhile_cons] at h
    by_cases hpa : p a = true
    · rw [if_pos hpa] at h
      exact ih h
    · rw [if_neg hpa] at h
      injection h with h1 _
      subst h1
      simpa using hpa

theorem dropWhile_idem {p : Char → Bool} (l : List Char) :
    (l.dropWhile p).dropWhile p = l.dropWhile p := by
  rcases hd : l.dropWhile p with _ | ⟨c, rest⟩
  · rfl
  · exact List.dropWhile_cons_of_neg (by simp [dropWhile_head_not hd])

theorem dropWhile_eq_self_of_all {p : Char → Bool} {l : List Char}
    (h : l.all (fun c => !p c) = true) : l.dropWhile p = l := by
  cases l with
  | nil => rfl
  | cons c rest =>
    simp only [List.all_cons, Bool.and_eq_true] at h
    exact List.dropWhile_cons_of_neg (by simpa using h.1)

theorem dropTrail_eq_self_of_all {p : Char → Bool} {l : List Char}
    (h : l.all (fun c => !p c) = true) : dropTrail p l = l := by
  unfold dropTrail
  rw [dropWhile_eq_self_of_all (by rw [List.all_reverse]; exact h), List.reverse_reverse]

theorem strip_eq_self_of_all {l : List Char} (h : l.all (fun c => !isPySpace c) = true) :
    strip l = l := by
  unfold strip
  rw [dropWhile_eq_self_of_all h, dropTrail_eq_self_of_all h]

theorem strip_eq_nil_of_all {l : List Char} (h : l.all isPySpace = true) : strip l = [] := by
  unfold strip
  rw [List.dropWhile_eq_nil_iff.mpr (fun x hx => List.all_eq_true.mp h x hx)]
  rfl

theorem strip_sublist (l : List Char) : List.Sublist (strip l) l := by
  unfold strip dropTrail
  have h1 : List.Sublist ((l.dropWhile isPySpace).reverse.dropWhile isPySpace)
      (l.dropWhile isPySpace).reverse := List.dropWhile_sublist _
  have h2 := List.Sublist.reverse h1
  rw [List.reverse_reverse] at h2
  exact h2.trans (List.dropWhile_sublist _)

theorem dropTrail_idem {p : Char → Bool} (l : List Char) :
    dropTrail p (dropTrail p l) = dropTrail p l := by
  unfold dropTrail
  rw [List.reverse_reverse, dropWhile_idem]

theorem dropTrail_decomp (p : Char → Bool) (l : List Char) :
    dropTrail p l ++ (l.reverse.takeWhile p).reverse = l := by
  unfold dropTrail
  rw [← List.reverse_append, List.takeWhile_append_dropWhile, List.reverse_reverse]

theorem strip_decomp (l : List Char) :
    ∃ pre post, pre ++ strip l ++ post = l := by
  refine ⟨l.takeWhile isPySpace,
    ((l.dropWhile isPySpace).reverse.takeWhile isPySpace).reverse, ?_⟩
  unfold strip
  rw [List.append_assoc, dropTrail_decomp]
  exact List.takeWhile_append_dropWhile _ _

theorem strip_idem (l : List Char) : strip (strip l) = strip l := by
  have hstrip : strip l = dropTrail isPySpace (l.dropWhile isPySpace) := rfl
  rcases hdt : dropTrail isPySpace (l.dropWhile isPySpace) with _ | ⟨d, r⟩
  · rw [hstrip, hdt]
    rfl
  · have h1 : strip l = d :: r := by rw [hstrip, hdt]
    rcases hm : l.dropWhile isPySpace with _ | ⟨c, m'⟩
    · rw [hm] at hdt
      simp [dropTrail] at hdt
    · have hc : isPySpace c = false := dropWhile_head_not hm
      rw [hm] at hdt
      have hdec := dropTrail_decomp isPySpace (c :: m')
      rw [hdt] at hdec
      have hdc : d = c := by
        have hh := congrArg List.head? hdec
        simpa using hh
      have h2 : (d :: r).dropWhile isPySpace = d :: r :=
        List.dropWhile_cons_of_neg (by simp [hdc, hc])
      have h3 : dropTrail isPySpace (d :: r) = d :: r := by
        rw [← hdt, dropTrail_idem]
      rw [h1]
      unfold strip
      rw [h2, h3]

/-! ### Structure of `clean_items` output -/
theorem joinNl_filter {p : Char → Bool} (hp : p '\n' = false) (items : List (List Char)) :
    (joinNl items).filter p = (items.map (List.filter p)).flatten := by
  induction items with
  | nil => rfl
  | cons x xs ih =>
    cases xs with
    | nil => simp [joinNl]
    | cons y t =>
      rw [show joinNl (x :: y :: t) = x ++ '\n' :: joinNl (y :: t) from rfl]
      rw [List.filter_append, List.filter_cons_of_neg (by simp [hp]), ih]
      simp

theorem map_filter_strip_sublist (p : Char → Bool) (chunks : List (List Char)) :
    List.Sublist
      ((((chunks.map strip).filter (fun l => !l.isEmpty)).map (List.filter p)).flatten)
      ((chunks.map (List.filter p)).flatten) := by
  induction chunks with
  | nil => simp
  | cons c rest ih =>
    rw [List.map_cons, List.map_cons, List.flatten_cons, List.filter_cons]
    by_cases hemp : (!(strip c).isEmpty) = true
    · rw [if_pos hemp, List.map_cons, List.flatten_cons]
      exact List.Sublist.append (List.Sublist.filter p (strip_sublist c)) ih
    · rw [if_neg hemp]
      exact List.sublist_append_of_sublist_right ih

theorem clean_items_expand {t : List Char} (ht : ¬ t.isEmpty = true) :
    clean_items t = ((splitLines (subPasses t)).map strip).filter (fun l => !l.isEmpty) := by
  unfold clean_items
  rw [if_neg ht]

theorem clean_items_mem_decomp {s e : List Char} (he : e ∈ clean_items s) :
    ∃ pre post, pre ++ e ++ post = subPasses s := by
  unfold clean_items at he
  split at he
  · exact absurd he (by simp)
  · simp only [List.mem_filter, List.mem_map] at he
    obtain ⟨⟨chunk, hchunk, rfl⟩, -⟩ := he
    obtain ⟨pre1, post1, hdec1⟩ := splitLinesAux_mem_decomp (subPasses s) [] chunk hchunk
    simp only [List.reverse_nil, List.nil_append] at hdec1
    obtain ⟨pre2, post2, hdec2⟩ := strip_decomp chunk
    refine ⟨pre1 ++ pre2, post2 ++ post1, ?_⟩
    rw [← hdec1]
    conv_rhs => rw [← hdec2]
    simp [List.append_assoc]

theorem clean_items_mem_props {s e : List Char} (he : e ∈ clean_items s) :
    ¬ e = [] ∧ e.all (fun c => !isLineBoundary c) = true ∧ strip e = e := by
  unfold clean_items at he
  split at he
  · exact absurd he (by simp)
  · simp only [List.mem_filter, List.mem_map] at he
    obtain ⟨⟨chunk, hchunk, rfl⟩, hne⟩ := he
    refine ⟨by simpa using hne, ?_, strip_idem chunk⟩
    have hb := splitLinesAux_all_not_boundary (subPasses s) [] (by simp) chunk hchunk
    exact all_of_sublist (strip_sublist chunk) hb

theorem boundary_not_angle : ∀ c, isLineBoundary c = true → isAngle c = false := by
  intro c h
  simp only [isLineBoundary, Bool.or_eq_true, beq_iff_eq] at h
  rcases h with (((((((((h | h) | h) | h) | h) | h) | h) | h) | h) | h) <;> subst h <;> decide

theorem clean_items_elem_no_tag {s e : List Char} (he : e ∈ clean_items s) :
    hasTag e = false := by
  obtain ⟨pre, post, hdec⟩ := clean_items_mem_decomp he
  have hsub : List.Sublist e (subPasses s) := by
    rw [← hdec]
    exact (List.sublist_append_of_sublist_right (List.Sublist.refl e)).trans
      (List.sublist_append_left (pre ++ e) post)
  exact hasTag_eq_false_of_sublist hsub (hasTag_removeTags _)

theorem clean_items_elem_no_allergen {s e : List Char}
    (hs : hasAllergen (subPasses s) = false) (he : e ∈ clean_items s) :
    hasAllergen e = false := by
  obtain ⟨pre, post, hdec⟩ := clean_items_mem_decomp he
  by_contra hc
  simp only [Bool.not_eq_false] at hc
  have : hasAllergen (pre ++ (e ++ post)) = true :=
    hasAllergen_append_left pre (hasAllergen_append_right post hc)
  rw [← List.append_assoc, hdec, hs] at this
  exact absurd this (by simp)

theorem joinNl_cons_ne_nil {x : List Char} {xs : List (List Char)} (hx : ¬ x = []) :
    ¬ joinNl (x :: xs) = [] := by
  cases xs with
  | nil => simpa [joinNl]
  | cons y t =>
    rw [show joinNl (x :: y :: t) = x ++ '\n' :: joinNl (y :: t) from rfl]
    simp

theorem hasTag_joinNl_clean_items (s : List Char) :
    hasTag (joinNl (clean_items s)) = false := by
  by_cases hs : s.isEmpty = true
  · have hempty : clean_items s = [] := by
      unfold clean_items
      rw [if_pos hs]
    rw [hempty]
    rfl
  · by_contra hc
    simp only [Bool.not_eq_false] at hc
    have hsub1 : List.Sublist ['<', '>'] (joinNl (clean_items s)) := hasTag_iff_sublist.mp hc
    have hsub2 : List.Sublist ['<', '>'] ((joinNl (clean_items s)).filter isAngle) := by
      have hh := List.Sublist.filter isAngle hsub1
      have heq : (['<', '>'] : List Char).filter isAngle = ['<', '>'] := rfl
      rw [heq] at hh
      exact hh
    have h3 : (joinNl (clean_items s)).filter isAngle
        = ((clean_items s).map (List.filter isAngle)).flatten := joinNl_filter (by decide) _
    have hitems : clean_items s
        = ((splitLines (subPasses s)).map strip).filter (fun l => !l.isEmpty) := by
      unfold clean_items
      rw [if_neg hs]
    have h4 : List.Sublist ((clean_items s).map (List.filter isAngle)).flatten
        (((splitLines (subPasses s)).map (List.filter isAngle)).flatten) := by
      conv_lhs => rw [hitems]
      exact map_filter_strip_sublist isAngle _
    have h5 : ((splitLines (subPasses s)).map (List.filter isAngle)).flatten
        = (subPasses s).filter isAngle := by
      have hh := splitLinesAux_join_filter boundary_not_angle (subPasses s) []
      simpa [splitLines] using hh
    rw [h3] at hsub2
    have h6 := hsub2.trans h4
    rw [h5] at h6
    have h7 := h6.trans (List.filter_sublist _)
    have h8 := hasTag_iff_sublist.mpr h7
    rw [show subPasses s = removeTags (removeAllergen (replaceBr s)) from rfl] at h8
    rw [hasTag_removeTags] at h8
    exact absurd h8 (by simp)

theorem clean_items_idem_of_no_allergen {s : List Char}
    (hall : (clean_items s).all (fun e => !hasAllergen e) = true) :
    clean_items (joinNl (clean_items s)) = clean_items s := by
  rcases hni : clean_items s with _ | ⟨x, xs⟩
  · rw [show joinNl [] = [] from rfl]
    unfold clean_items
    simp
  · rw [← hni]
    have hs : ¬ s.isEmpty = true := by
      intro hsi
      unfold clean_items at hni
      rw [if_pos hsi] at hni
      exact absurd hni (by simp)
    have hx_mem : x ∈ clean_items s := by rw [hni]; simp
    have hxne : ¬ x = [] := (clean_items_mem_props hx_mem).1
    have hJ : ¬ (joinNl (clean_items s)).isEmpty = true := by
      rw [hni]
      simpa [List.isEmpty_iff] using joinNl_cons_ne_nil hxne
    have htagJ := hasTag_joinNl_clean_items s
    have hallJ : hasAllergen (joinNl (clean_items s)) = false := by
      rw [hasAllergen_joinNl]
      by_contra hcon
      simp only [Bool.not_eq_false, List.any_eq_true] at hcon
      obtain ⟨e, hmem, hae⟩ := hcon
      have hfa := List.all_eq_true.mp hall e hmem
      rw [hae] at hfa
      exact absurd hfa (by simp)
    have hsubJ : subPasses (joinNl (clean_items s)) = joinNl (clean_items s) := by
      unfold subPasses
      rw [replaceBr_eq_self htagJ, removeAllergen_eq_self hallJ, removeTags_eq_self htagJ]
    have hprops : ∀ e ∈ clean_items s,
        ¬ e = [] ∧ e.all (fun c => !isLineBoundary c) = true :=
      fun e he => ⟨(clean_items_mem_props he).1, (clean_items_mem_props he).2.1⟩
    have hsplit : splitLines (joinNl (clean_items s)) = clean_items s :=
      splitLines_joinNl hprops (by rw [hni]; simp)
    rw [clean_items_expand hJ, hsubJ, hsplit]
    have hmap : (clean_items s).map strip = clean_items s := by
      have hcong : ∀ e ∈ clean_items s, strip e = e :=
        fun e he => (clean_items_mem_props he).2.2
      calc (clean_items s).map strip = (clean_items s).map id := List.map_congr_left hcong
        _ = clean_items s := List.map_id _
    rw [hmap]
    exact List.filter_eq_self.mpr (fun e he => by simpa using (clean_items_mem_props he).1)

/-! ### Conditional equations and character-class helpers -/
theorem removeAllergen_nil : removeAllergen [] = [] := by
  rw [removeAllergen]

theorem removeAllergen_cons_ne {c : Char} {rest : List Char} (h : (c == '(') = false) :
    removeAllergen (c :: rest) = c :: removeAllergen rest := by
  rw [removeAllergen]
  rw [if_neg (by simp [h])]

theorem removeAllergen_cons_some {rest rest' : List Char}
    (h : allergenMatch rest = some rest') :
    removeAllergen ('(' :: rest) = removeAllergen rest' := by
  rw [removeAllergen]
  have hm : (allergenMatch rest).isSome = true := by simp [h]
  rw [if_pos (by decide)]
  rw [dif_pos hm]
  congr 1
  simp [h]

theorem replaceBr_nil : replaceBr [] = [] := by
  rw [replaceBr]

theorem replaceBr_pat {rest : List Char} (h : rest.take 4 = ['b', 'r', '/', '>']) :
    replaceBr ('<' :: rest) = '\n' :: replaceBr (rest.drop 4) := by
  rw [replaceBr]
  rw [if_pos ⟨rfl, h⟩]

theorem replaceBr_cons_ne {c : Char} {rest : List Char}
    (h : ¬(c = '<' ∧ rest.take 4 = ['b', 'r', '/', '>'])) :
    replaceBr (c :: rest) = c :: replaceBr rest := by
  rw [replaceBr]
  rw [if_neg h]

theorem replaceBr_append_no_lt {a : List Char} (rest : List Char)
    (h : a.contains '<' = false) : replaceBr (a ++ rest) = a ++ replaceBr rest := by
  induction a with
  | nil => simp
  | cons c a' ih =>
    simp only [List.contains_cons, Bool.or_eq_false_iff] at h
    have hc : ¬ c = '<' := by
      intro hcc
      subst hcc
      exact absurd h.1 (by decide)
    rw [List.cons_append, replaceBr_cons_ne (fun hh => hc hh.1), ih h.2]
    rfl

theorem contains_append_eq_false {a b : List Char} {x : Char}
    (ha : a.contains x = false) (hb : b.contains x = false) :
    (a ++ b).contains x = false := by
  by_contra hc
  simp only [Bool.not_eq_false] at hc
  rcases List.mem_append.mp (List.elem_iff.mp hc) with hm | hm
  · have hfa : a.contains x = true := List.elem_iff.mpr hm
    rw [hfa] at ha
    exact absurd ha (by simp)
  · have hfb : b.contains x = true := List.elem_iff.mpr hm
    rw [hfb] at hb
    exact absurd hb (by simp)

theorem contains_eq_false_of_forall {l : List Char} {x : Char}
    (h : ∀ c ∈ l, ¬ c = x) : l.contains x = false := by
  by_contra hc
  simp only [Bool.not_eq_false] at hc
  exact h x (List.elem_iff.mp hc) rfl

theorem all_implies {p q : Char → Bool} (hpq : ∀ c, p c = true → q c = true)
    {l : List Char} (h : l.all p = true) : l.all q = true := by
  rw [List.all_eq_true] at h
  rw [List.all_eq_true]
  exact fun x hx => hpq x (h x hx)

theorem isLineBoundary_isPySpace : ∀ c, isLineBoundary c = true → isPySpace c = true := by
  intro c h
  simp only [isLineBoundary, Bool.or_eq_true, beq_iff_eq] at h
  rcases h with (((((((((h | h) | h) | h) | h) | h) | h) | h) | h) | h) <;> subst h <;> decide

theorem no_char_of_all_space {l : List Char} {x : Char} (hx : isPySpace x = false)
    (h : l.all isPySpace = true) : l.contains x = false := by
  apply contains_eq_false_of_forall
  intro c hc hcx
  subst hcx
  have := List.all_eq_true.mp h c hc
  rw [hx] at this
  exact absurd this (by simp)

theorem mem_splitLines_sublist {u chunk : List Char} (h : chunk ∈ splitLines u) :
    List.Sublist chunk u := by
  obtain ⟨pre, post, hdec⟩ := splitLinesAux_mem_decomp u [] chunk (by simpa [splitLines] using h)
  simp only [List.reverse_nil, List.nil_append] at hdec
  rw [← hdec]
  exact (List.sublist_append_of_sublist_right (List.Sublist.refl chunk)).trans
    (List.sublist_append_left (pre ++ chunk) post)

theorem clean_items_all_space {s : List Char} (h : s.all isPySpace = true) :
    clean_items s = [] := by
  by_cases hs : s.isEmpty = true
  · unfold clean_items
    rw [if_pos hs]
  · rw [clean_items_expand hs]
    have hsub : subPasses s = s := by
      unfold subPasses
      rw [replaceBr_eq_self (hasTag_eq_false_of_no_lt (no_char_of_all_space (by decide) h))]
      rw [removeAllergen_eq_self (hasAllergen_eq_false_of_no_paren
        (no_char_of_all_space (by decide) h))]
      rw [removeTags_eq_self (hasTag_eq_false_of_no_lt (no_char_of_all_space (by decide) h))]
    rw [hsub]
    rw [List.filter_eq_nil_iff]
    intro e he
    simp only [List.mem_map] at he
    obtain ⟨chunk, hchunk, rfl⟩ := he
    have hc : chunk.all isPySpace = true := all_of_sublist (mem_splitLines_sublist hchunk) h
    rw [strip_eq_nil_of_all hc]
    simp

theorem noDoubleDot_of_all_digit : ∀ {l : List Char}, l.all Char.isDigit = true →
    noDoubleDot l = true := by
  intro l
  induction l with
  | nil => intro _; rfl
  | cons c rest ih =>
    intro h
    cases rest with
    | nil => rfl
    | cons d rest' =>
      simp only [List.all_cons, Bool.and_eq_true] at h
      have hc : (c == '.') = false := by
        by_contra hcc
        simp only [Bool.not_eq_false, beq_iff_eq] at hcc
        subst hcc
        exact absurd h.1 (by decide)
      rw [show noDoubleDot (c :: d :: rest')
          = (!(c == '.' && d == '.') && noDoubleDot (d :: rest')) from rfl]
      rw [hc]
      simp only [Bool.false_and, Bool.not_false, Bool.true_and]
      exact ih (by simp [List.all_cons, h.2.1, h.2.2])

theorem allergenMatch_digits {ds : List Char} (hne : ¬ ds = [])
    (hd : ds.all Char.isDigit = true) (post : List Char) :
    allergenMatch (ds ++ ')' :: post) = some post := by
  have hdd : ∀ a ∈ ds, isDigitDot a = true := fun a ha => by
    simp [isDigitDot, List.all_eq_true.mp hd a ha]
  have h1 : (ds ++ ')' :: post).dropWhile isDigitDot = ')' :: post := by
    rw [List.dropWhile_append_of_pos hdd]
    exact List.dropWhile_cons_of_neg (by decide)
  have h2 : (ds ++ ')' :: post).takeWhile isDigitDot = ds := by
    rw [List.takeWhile_append_of_pos hdd]
    rw [List.takeWhile_cons_of_neg (by decide)]
    simp
  have hv : validContent ds = true := by
    cases ds with
    | nil => exact absurd rfl hne
    | cons d ds' =>
      have hdg : d.isDigit = true := List.all_eq_true.mp hd d (by simp)
      rw [show validContent (d :: ds') = (d.isDigit && noDoubleDot (d :: ds')) from rfl]
      rw [hdg, noDoubleDot_of_all_digit hd]
      rfl
  unfold allergenMatch
  rw [if_pos ⟨by rw [h1]; rfl, by rw [h2]; exact hv⟩]
  rw [h1]
  rfl

theorem plain_no_lt {l : List Char} (h : l.all plainChar = true) :
    l.contains '<' = false := by
  apply contains_eq_false_of_forall
  intro c hc hcx
  subst hcx
  have hp := List.all_eq_true.mp h '<' hc
  rw [show plainChar '<' = false from rfl] at hp
  exact absurd hp (by simp)

theorem plain_no_paren {l : List Char} (h : l.all plainChar = true) :
    l.contains '(' = false := by
  apply contains_eq_false_of_forall
  intro c hc hcx
  subst hcx
  have hp := List.all_eq_true.mp h '(' hc
  rw [show plainChar '(' = false from rfl] at hp
  exact absurd hp (by simp)

theorem plain_not_space : ∀ c, plainChar c = true → (!isPySpace c) = true := by
  intro c h
  simp only [plainChar, Bool.and_eq_true] at h
  exact h.2

theorem plain_not_boundary : ∀ c, plainChar c = true → (!isLineBoundary c) = true := by
  intro c h
  cases hlb : isLineBoundary c
  · simp
  · have hs := isLineBoundary_isPySpace c hlb
    have hns := plain_not_space c h
    rw [hs] at hns
    exact absurd hns (by simp)

theorem clean_items_br_split {a b : List Char}
    (ha : a.all plainChar = true) (hb : b.all plainChar = true)
    (hna : ¬ a = []) (hnb : ¬ b = []) :
    clean_items (a ++ '<' :: 'b' :: 'r' :: '/' :: '>' :: b) = [a, b] := by
  have haLt := plain_no_lt ha
  have hbLt := plain_no_lt hb
  have haP := plain_no_paren ha
  have hbP := plain_no_paren hb
  have h1 : replaceBr (a ++ '<' :: 'b' :: 'r' :: '/' :: '>' :: b) = a ++ '\n' :: b := by
    rw [replaceBr_append_no_lt _ haLt]
    rw [replaceBr_pat (by rfl)]
    rw [show List.drop 4 ('b' :: 'r' :: '/' :: '>' :: b) = b from rfl]
    rw [replaceBr_eq_self (hasTag_eq_false_of_no_lt hbLt)]
  have hparen : (a ++ '\n' :: b).contains '(' = false :=
    contains_append_eq_false haP (by
      rw [List.contains_cons]
      simp only [Bool.or_eq_false_iff]
      exact ⟨by decide, hbP⟩)
  have h2 : removeAllergen (a ++ '\n' :: b) = a ++ '\n' :: b :=
    removeAllergen_eq_self (hasAllergen_eq_false_of_no_paren hparen)
  have hlt2 : (a ++ '\n' :: b).contains '<' = false :=
    contains_append_eq_false haLt (by
      rw [List.contains_cons]
      simp only [Bool.or_eq_false_iff]
      exact ⟨by decide, hbLt⟩)
  have h3 : removeTags (a ++ '\n' :: b) = a ++ '\n' :: b :=
    removeTags_eq_self (hasTag_eq_false_of_no_lt hlt2)
  have hne : ¬ (a ++ '<' :: 'b' :: 'r' :: '/' :: '>' :: b).isEmpty = true := by
    cases a <;> simp
  rw [clean_items_expand hne]
  have hsp : subPasses (a ++ '<' :: 'b' :: 'r' :: '/' :: '>' :: b) = a ++ '\n' :: b := by
    unfold subPasses
    rw [h1, h2, h3]
  rw [hsp]
  have hanb : a.all (fun c => !isLineBoundary c) = true := all_implies plain_not_boundary ha
  have hbnb : b.all (fun c => !isLineBoundary c) = true := all_implies plain_not_boundary hb
  unfold splitLines
  rw [splitLinesAux_append_nl b [] hanb]
  rw [splitLinesAux_all_text [] hbnb (by simpa using hnb)]
  simp only [List.reverse_nil, List.nil_append]
  have hsa : strip a = a := strip_eq_self_of_all (all_implies plain_not_space ha)
  have hsb : strip b = b := strip_eq_self_of_all (all_implies plain_not_space hb)
  rw [show ([a, b].map strip) = [strip a, strip b] from rfl]
  rw [hsa, hsb]
  apply List.filter_eq_self.mpr
  intro e he
  rcases List.mem_cons.mp he with rfl | he2
  · simpa using hna
  · rcases List.mem_cons.mp he2 with rfl | he3
    · simpa using hnb
    · exact absurd he3 (by simp)

theorem clean_items_digit_group {ds : List Char} (hne : ¬ ds = [])
    (hd : ds.all Char.isDigit = true) :
    clean_items ('a' :: '(' :: (ds ++ [')', 'b'])) = [['a', 'b']] := by
  have hlt : ('a' :: '(' :: (ds ++ [')', 'b'])).contains '<' = false := by
    apply contains_eq_false_of_forall
    intro c hc hcx
    subst hcx
    simp +decide [List.mem_cons, List.mem_append] at hc
    have := List.all_eq_true.mp hd _ hc
    exact absurd this (by decide)
  have hrb : replaceBr ('a' :: '(' :: (ds ++ [')', 'b'])) = 'a' :: '(' :: (ds ++ [')', 'b']) :=
    replaceBr_eq_self (hasTag_eq_false_of_no_lt hlt)
  have hra : removeAllergen ('a' :: '(' :: (ds ++ [')', 'b'])) = ['a', 'b'] := by
    rw [removeAllergen_cons_ne (by decide)]
    rw [show ds ++ [')', 'b'] = ds ++ ')' :: ['b'] from rfl]
    rw [removeAllergen_cons_some (allergenMatch_digits hne hd ['b'])]
    rw [removeAllergen_cons_ne (by decide), removeAllergen_nil]
  have hrt : removeTags (['a', 'b'] : List Char) = ['a', 'b'] :=
    removeTags_eq_self (hasTag_eq_false_of_no_lt (by decide))
  rw [clean_items_expand (by simp)]
  have hsp : subPasses ('a' :: '(' :: (ds ++ [')', 'b'])) = ['a', 'b'] := by
    unfold subPasses
    rw [hrb, hra, hrt]
  rw [hsp]
  simp +decide [splitLines, splitLinesAux, strip, dropTrail]

/-- C1: the view-time slot-selection function is total on minutes-since-midnight
`m = hh*60 + mm` and returns today's breakfast for `m < 540`, today's lunch for
`540 ≤ m < 780`, today's dinner for `780 ≤ m < 1140`, and tomorrow's breakfast
for `1140 ≤ m`. -/
theorem decideSlot_buckets (k : KstTime) (t tm : String) :
    (k.hh * 60 + k.mm < 540 → decideSlot k t tm = ⟨"today", t, "1", "조식"⟩) ∧
    (540 ≤ k.hh * 60 + k.mm → k.hh * 60 + k.mm < 780 →
      decideSlot k t tm = ⟨"today", t, "2", "중식"⟩) ∧
    (780 ≤ k.hh * 60 + k.mm → k.hh * 60 + k.mm < 1140 →
      decideSlot k t tm = ⟨"today", t, "3", "석식"⟩) ∧
    (1140 ≤ k.hh * 60 + k.mm → decideSlot k t tm = ⟨"tomorrow", tm, "1", "내일 조식"⟩) := by
  refine ⟨fun h => ?_, fun h1 h2 => ?_, fun h1 h2 => ?_, fun h => ?_⟩ <;> unfold decideSlot
  · rw [if_pos (by omega)]
  · rw [if_neg (by omega), if_pos (by omega)]
  · rw [if_neg (by omega), if_neg (by omega), if_pos (by omega)]
  · rw [if_neg (by omega), if_neg (by omega), if_neg (by omega)]

/-- Boundary-value witness for C1: 539 → breakfast, 540 → lunch, 779 → lunch,
780 → dinner, 1139 → dinner, 1140 → tomorrow breakfast. -/
theorem decideSlot_buckets_witness :
    decideSlot ⟨8, 59⟩ "t" "m" = ⟨"today", "t", "1", "조식"⟩ ∧
    decideSlot ⟨9, 0⟩ "t" "m" = ⟨"today", "t", "2", "중식"⟩ ∧
    decideSlot ⟨12, 59⟩ "t" "m" = ⟨"today", "t", "2", "중식"⟩ ∧
    decideSlot ⟨13, 0⟩ "t" "m" = ⟨"today", "t", "3", "석식"⟩ ∧
    decideSlot ⟨18, 59⟩ "t" "m" = ⟨"today", "t", "3", "석식"⟩ ∧
    decideSlot ⟨19, 0⟩ "t" "m" = ⟨"tomorrow", "m", "1", "내일 조식"⟩ :=
  ⟨(decideSlot_buckets ⟨8, 59⟩ "t" "m").1 (by decide),
   (decideSlot_buckets ⟨9, 0⟩ "t" "m").2.1 (by decide) (by decide),
   (decideSlot_buckets ⟨12, 59⟩ "t" "m").2.1 (by decide) (by decide),
   (decideSlot_buckets ⟨13, 0⟩ "t" "m").2.2.1 (by decide) (by decide),
   (decideSlot_buckets ⟨18, 59⟩ "t" "m").2.2.1 (by decide) (by decide),
   (decideSlot_buckets ⟨19, 0⟩ "t" "m").2.2.2 (by decide)⟩

/-- C2 counterexample: on the input `"(1(2)3)"` the Normalizer's output is the
single element `"(13)"`, which still matches the allergen-code pattern, so the
claim "the output contains no parenthesized pure-digit-dot group" is false as
stated. -/
theorem clean_items_allergen_survives :
    clean_items ['(', '1', '(', '2', ')', '3', ')'] = [['(', '1', '3', ')']] ∧
    hasAllergen ['(', '1', '3', ')'] = true := by
  constructor
  · simp +decide [clean_items, subPasses, removeAllergen, removeTags, replaceBr, splitLinesAux,
      splitLines, allergenMatch, tagMatch, strip, dropTrail]
  · decide

/-- C2 amended: no element of the Normalizer's output contains an HTML tag;
and whenever the substitution passes leave no allergen-shaped group in the
processed string, no output element contains one (in general a group can
survive, because single-pass removal can create a new group). -/
theorem clean_items_no_tags_and_allergen_conditional (s : List Char) :
    ((clean_items s).all (fun e => !hasTag e)) = true ∧
    (hasAllergen (subPasses s) = false →
      ((clean_items s).all (fun e => !hasAllergen e)) = true) := by
  constructor
  · rw [List.all_eq_true]
    intro e he
    simp [clean_items_elem_no_tag he]
  · intro hs
    rw [List.all_eq_true]
    intro e he
    simp [clean_items_elem_no_allergen hs he]

/-- Witness for the amended C2 at the concrete input `"a<x>b(1.2)"`. -/
theorem clean_items_no_tags_witness :
    ((clean_items ['a', '<', 'x', '>', 'b', '(', '1', '.', '2', ')']).all
      (fun e => !hasTag e)) = true ∧
    ((clean_items ['a', '<', 'x', '>', 'b', '(', '1', '.', '2', ')']).all
      (fun e => !hasAllergen e)) = true :=
  ⟨(clean_items_no_tags_and_allergen_conditional _).1,
   (clean_items_no_tags_and_allergen_conditional _).2 (by
     simp +decide [subPasses, removeAllergen, removeTags, replaceBr, allergenMatch, tagMatch,
       hasAllergen])⟩

/-- C4 counterexample: the Normalizer is not idempotent; on `"(1(2)3)"` the
first application yields `["(13)"]` and reapplying it to the rejoined output
deletes the surviving group, yielding `[]`. -/
theorem clean_items_not_idempotent :
    clean_items (joinNl (clean_items ['(', '1', '(', '2', ')', '3', ')'])) ≠
      clean_items ['(', '1', '(', '2', ')', '3', ')'] := by
  have h1 : clean_items ['(', '1', '(', '2', ')', '3', ')'] = [['(', '1', '3', ')']] := by
    simp +decide [clean_items, subPasses, removeAllergen, removeTags, replaceBr, splitLinesAux,
      splitLines, allergenMatch, tagMatch, strip, dropTrail]
  rw [h1]
  have h2 : clean_items (joinNl [['(', '1', '3', ')']]) = [] := by
    simp +decide [clean_items, subPasses, removeAllergen, removeTags, replaceBr, splitLinesAux,
      splitLines, allergenMatch, tagMatch, strip, dropTrail, joinNl]
  rw [h2]
  simp

/-- C4 amended: the Normalizer is idempotent on every input whose first-pass
output elements contain no allergen-shaped group: reapplying it to the
newline-joined output reproduces the output exactly. -/
theorem clean_items_idempotent_of_no_allergen (s : List Char)
    (hall : (clean_items s).all (fun e => !hasAllergen e) = true) :
    clean_items (joinNl (clean_items s)) = clean_items s :=
  clean_items_idem_of_no_allergen hall

/-- Witness for the amended C4 at the concrete input `"x<br/>y"`. -/
theorem clean_items_idempotent_witness :
    clean_items (joinNl (clean_items ['x', '<', 'b', 'r', '/', '>', 'y'])) =
      clean_items ['x', '<', 'b', 'r', '/', '>', 'y'] :=
  clean_items_idempotent_of_no_allergen _ (by
    simp +decide [clean_items, subPasses, removeAllergen, removeTags, replaceBr, splitLinesAux,
      splitLines, allergenMatch, tagMatch, strip, dropTrail, hasAllergen])

/-- C3 counterexample: the artifact written by `main` does not have the shape
claimed by the spec — its top level has keys `school`, `built_at_kst`, `meals`,
so the claimed `built_at`, `today` and `tomorrow` top-level fields are absent. -/
theorem snapshot_lacks_claimed_shape :
    specSnapshotShape (buildSnapshot "20250101".data "20250102".data
      "2025-01-01 03:00:00".data ([], []) ([], []) ([], []) ([], [])) = false := by
  decide

/-- C3 amended: the Snapshot artifact is the JSON object
`{ school: string, built_at_kst: string, meals: { today, tomorrow } }`, where
each menu record holds its `date` plus slot-code keys directly ("1","2","3"
for today, only "1" for tomorrow) rather than a nested `slots` mapping. -/
theorem snapshot_actual_shape (today tomorrow builtAt : List Char)
    (f1 f2 f3 f4 : List (List Char) × List Char) :
    jKeys (buildSnapshot today tomorrow builtAt f1 f2 f3 f4)
        = ["school".data, "built_at_kst".data, "meals".data] ∧
    jLookup (buildSnapshot today tomorrow builtAt f1 f2 f3 f4) "school".data
        = some (Json.str (buildSchool f1.2 f2.2 f3.2 f4.2)) ∧
    jLookup (buildSnapshot today tomorrow builtAt f1 f2 f3 f4) "built_at_kst".data
        = some (Json.str builtAt) ∧
    jLookup (buildSnapshot today tomorrow builtAt f1 f2 f3 f4) "meals".data
        = some (buildMeals today tomorrow f1.1 f2.1 f3.1 f4.1) ∧
    jKeys (buildMeals today tomorrow f1.1 f2.1 f3.1 f4.1)
        = ["today".data, "tomorrow".data] ∧
    (jLookup (buildMeals today tomorrow f1.1 f2.1 f3.1 f4.1) "today".data).map jKeys
        = some ["date".data, "1".data, "2".data, "3".data] ∧
    (jLookup (buildMeals today tomorrow f1.1 f2.1 f3.1 f4.1) "tomorrow".data).map jKeys
        = some ["date".data, "1".data] ∧
    ((jLookup (buildMeals today tomorrow f1.1 f2.1 f3.1 f4.1) "today".data).bind
        (fun d => jLookup d "date".data)) = some (Json.str today) ∧
    ((jLookup (buildMeals today tomorrow f1.1 f2.1 f3.1 f4.1) "tomorrow".data).bind
        (fun d => jLookup d "date".data)) = some (Json.str tomorrow) :=
  ⟨rfl, rfl, rfl, rfl, rfl, rfl, rfl, rfl, rfl⟩

/-- C5: the Meal Fetcher collapses every failure — network error, non-success
HTTP status, malformed JSON, absent rows — to the single observable outcome
`([], "")`, with no distinction between the failure kinds. -/
theorem fetch_one_failure_collapse (r : HttpResult) (h : isFailureOutcome r = true) :
    fetch_one r = ([], []) := by
  cases r with
  | netError => rfl
  | response status body =>
    simp only [isFailureOutcome] at h
    simp only [fetch_one]
    by_cases hst : 400 ≤ status ∧ status < 600
    · rw [if_pos hst]
    · rw [if_neg hst]
      rw [decide_eq_false hst] at h
      simp only [Bool.false_or] at h
      cases body with
      | none => rfl
      | some data =>
        simp only [bodyToResult]
        simp only at h
        cases hex : extractRows data with
        | none => rfl
        | some rows =>
          rw [hex] at h
          have hrows : rows = [] := by simpa using h
          subst hrows
          rfl

/-- Witness for C5 at the network-failure outcome. -/
theorem fetch_one_failure_collapse_witness : fetch_one HttpResult.netError = ([], []) :=
  fetch_one_failure_collapse HttpResult.netError (by decide)

/-- C6: for every outcome of the four fetches, the built Snapshot contains an
array value (never null, never a missing key) for today's slots "1","2","3"
and tomorrow's slot "1". -/
theorem snapshot_slots_always_lists (today tomorrow builtAt : List Char)
    (r1 r2 r3 r4 : HttpResult) :
    slotOf (buildSnapshot today tomorrow builtAt (fetch_one r1) (fetch_one r2)
        (fetch_one r3) (fetch_one r4)) "today".data "1".data
      = some (Json.arr ((fetch_one r1).1.map Json.str)) ∧
    slotOf (buildSnapshot today tomorrow builtAt (fetch_one r1) (fetch_one r2)
        (fetch_one r3) (fetch_one r4)) "today".data "2".data
      = some (Json.arr ((fetch_one r2).1.map Json.str)) ∧
    slotOf (buildSnapshot today tomorrow builtAt (fetch_one r1) (fetch_one r2)
        (fetch_one r3) (fetch_one r4)) "today".data "3".data
      = some (Json.arr ((fetch_one r3).1.map Json.str)) ∧
    slotOf (buildSnapshot today tomorrow builtAt (fetch_one r1) (fetch_one r2)
        (fetch_one r3) (fetch_one r4)) "tomorrow".data "1".data
      = some (Json.arr ((fetch_one r4).1.map Json.str)) :=
  ⟨rfl, rfl, rfl, rfl⟩

/-- C7: the Snapshot's `school` field is the first non-empty school name
across the four fetch results in call order, with the fixed fallback literal
`"학교"` when all four are empty. -/
theorem snapshot_school_first_nonempty (today tomorrow builtAt : List Char)
    (f1 f2 f3 f4 : List (List Char) × List Char) :
    jLookup (buildSnapshot today tomorrow builtAt f1 f2 f3 f4) "school".data
      = some (Json.str (specFirstNonEmptyOr "학교".data [f1.2, f2.2, f3.2, f4.2])) := by
  have h : buildSchool f1.2 f2.2 f3.2 f4.2
      = specFirstNonEmptyOr "학교".data [f1.2, f2.2, f3.2, f4.2] := by
    unfold buildSchool pyOr
    by_cases h1 : f1.2 = [] <;> by_cases h2 : f2.2 = [] <;> by_cases h3 : f3.2 = [] <;>
      by_cases h4 : f4.2 = [] <;> simp [specFirstNonEmptyOr, h1, h2, h3, h4]
  rw [show jLookup (buildSnapshot today tomorrow builtAt f1 f2 f3 f4) "school".data
      = some (Json.str (buildSchool f1.2 f2.2 f3.2 f4.2)) from rfl, h]

/-- C8 counterexample: the Normalizer replaces only the exact marker `<br/>`;
dish names separated by the marker form `<br>` are merged into one element
(the tag-stripping pass deletes `<br>` without inserting a newline). -/
theorem clean_items_br_without_slash_merges :
    clean_items ['a', '<', 'b', 'r', '>', 'c'] = [['a', 'c']] ∧
    clean_items ['a', '<', 'b', 'r', '>', 'c'] ≠ [['a'], ['c']] := by
  constructor
  · simp +decide [clean_items, subPasses, removeAllergen, removeTags, replaceBr, splitLinesAux,
      splitLines, allergenMatch, tagMatch, strip, dropTrail]
  · intro hc
    have h1 : clean_items ['a', '<', 'b', 'r', '>', 'c'] = [['a', 'c']] := by
      simp +decide [clean_items, subPasses, removeAllergen, removeTags, replaceBr, splitLinesAux,
        splitLines, allergenMatch, tagMatch, strip, dropTrail]
    rw [h1] at hc
    exact absurd hc (by decide)

/-- C8 amended: two plain dish names separated by the exact five-character
marker `<br/>` appear as separate elements of the output, in order. -/
theorem clean_items_br_marker_splits (a b : List Char)
    (ha : a.all plainChar = true) (hb : b.all plainChar = true)
    (hna : ¬ a = []) (hnb : ¬ b = []) :
    clean_items (a ++ '<' :: 'b' :: 'r' :: '/' :: '>' :: b) = [a, b] :=
  clean_items_br_split ha hb hna hnb

/-- Witness for the amended C8 at the concrete input `"rice<br/>soup"`. -/
theorem clean_items_br_marker_splits_witness :
    clean_items (['r', 'i', 'c', 'e'] ++ '<' :: 'b' :: 'r' :: '/' :: '>' :: ['s', 'o', 'u', 'p'])
      = [['r', 'i', 'c', 'e'], ['s', 'o', 'u', 'p']] :=
  clean_items_br_marker_splits _ _ (by decide) (by decide) (by decide) (by decide)

/-- C9: the Normalizer is a total function on strings and maps every
whitespace-only (in particular, empty) input to the empty list. -/
theorem clean_items_whitespace_empty (s : List Char) (h : s.all isPySpace = true) :
    clean_items s = [] :=
  clean_items_all_space h

/-- Witness for C9 at the concrete inputs `" \t\n "`, the unit separator
U+001F (whitespace for Python's `str.strip`), and the empty string. -/
theorem clean_items_whitespace_empty_witness :
    clean_items [' ', '\t', '\n', ' '] = [] ∧ clean_items ['\u001F'] = [] ∧
    clean_items [] = [] :=
  ⟨clean_items_whitespace_empty _ (by decide), clean_items_whitespace_empty _ (by decide),
   clean_items_whitespace_empty [] (by decide)⟩

/-- C10: the allergen-code regex also deletes parenthesized digit runs with no
dot separator, such as `(2024)`: for any nonempty all-digit `ds`, the group
`(ds)` is removed from the dish name. -/
theorem clean_items_removes_undotted_digit_group (ds : List Char)
    (hne : ¬ ds = []) (hd : ds.all Char.isDigit = true) :
    clean_items ('a' :: '(' :: (ds ++ [')', 'b'])) = [['a', 'b']] :=
  clean_items_digit_group hne hd

/-- Witness for C10 at the concrete group `(2024)`. -/
theorem clean_items_removes_undotted_digit_group_witness :
    clean_items ('a' :: '(' :: (['2', '0', '2', '4'] ++ [')', 'b'])) = [['a', 'b']] :=
  clean_items_removes_undotted_digit_group _ (by decide) (by decide)
